import Mathlib

/-!
# Verification of the `parg` blue-noise point generator (`src/bluenoise.c`)

This file gives a shallow embedding, over exact rationals, of the core of
`par_bluenoise`: the density sampler `sample_density`, the recursive tile
walker `apply_tile`, the driver `par_bluenoise_generate`, the density-field
builders, and `par_bluenoise_sort_by_rank`.  C `float` arithmetic is modelled
by `ℚ` (exact arithmetic; IEEE rounding and infinities are outside the model;
`x⁻¹` at `x = 0` is `0` in `ℚ` where IEEE produces `±inf`).  The C cast
`(int)f` is modelled by truncation toward zero, and the recursive descent of
`apply_tile` — whose termination depends on the tile data — is given an
explicit fuel parameter, with `none` meaning the fuel ran out.
-/

set_option allowUnsafeReducibility true in
attribute [semireducible] Rat.add Rat.mul Rat.inv Rat.sub Rat.div Rat.neg

namespace Parg

/-- 2-component vector, `par_vec2`. -/
structure Vec2 where
  x : ℚ
  y : ℚ
deriving DecidableEq, Repr

/-- 3-component vector `par_vec3`: a point plus its rank. -/
structure Vec3 where
  x : ℚ
  y : ℚ
  rank : ℚ
deriving DecidableEq, Repr

/-- `par_tile`: neighbor ids, subdivision maps, own points, sub-points.
The counts `npoints`/`nsubpts` of the C struct are the list lengths. -/
structure ParTile where
  n : ℤ
  e : ℤ
  s : ℤ
  w : ℤ
  subdivs : List (List ℕ)
  points : List Vec2
  subpts : List Vec2
deriving DecidableEq, Repr

/-- The optional density field of a context: a `width × height` grid of
scalars stored row-major in `data`. -/
structure DensityGrid where
  width : ℕ
  height : ℕ
  data : List ℚ
deriving DecidableEq, Repr

/-- The persistent part of `par_bluenoise_context_s`: the tile set, the
subtile grid size and the optional density field. -/
structure ParCtx where
  tiles : List ParTile
  nsubtiles : ℕ
  density : Option DensityGrid
deriving DecidableEq, Repr

/-- The per-call state `par_bluenoise_generate` stores into the context:
clamped viewport bounds, magnification and global density. -/
structure Gen where
  left : ℚ
  bottom : ℚ
  right : ℚ
  top : ℚ
  mag : ℚ
  global_density : ℚ
deriving DecidableEq, Repr

/-- The C macro `clamp(x, min, max)` on rationals. -/
def clampQ (x lo hi : ℚ) : ℚ := if x < lo then lo else if x > hi then hi else x

/-- The C macro `clamp(x, min, max)` on integers. -/
def clampZ (x lo hi : ℤ) : ℤ := if x < lo then lo else if x > hi then hi else x

/-- The C macro `mini(a, b)` on rationals. -/
def miniQ (a b : ℚ) : ℚ := if a < b then a else b

/-- The C macro `maxi(a, b)` on naturals. -/
def maxiN (a b : ℕ) : ℕ := if a > b then a else b

/-- The C cast `(int) f`: truncation toward zero. -/
def ratTrunc (q : ℚ) : ℤ := if q < 0 then -Rat.floor (-q) else Rat.floor q

/-- Array read `data[idx]` with an `Int` index; out-of-bounds reads (undefined
behavior in C) are modelled as the junk value `0`. -/
def gridGet (g : DensityGrid) (idx : ℤ) : ℚ :=
  if 0 ≤ idx then g.data.getD idx.toNat 0 else 0

/-- The column index computed by `sample_density`:
`ix = clamp((int)(x - 0.5) * maxi(w,h) + w/2, 0, w - 2)` (with `w/2` the C
integer division). -/
def densityCellIx (width height : ℕ) (x : ℚ) : ℤ :=
  clampZ (ratTrunc ((x - 1/2) * (maxiN width height : ℚ) + ((width / 2 : ℕ) : ℚ)))
    0 ((width : ℤ) - 2)

/-- The row index computed by `sample_density`: the query `y` is first flipped
to `1 - y`, then treated like `x` with `height/2` as the centering offset. -/
def densityCellIy (width height : ℕ) (y : ℚ) : ℤ :=
  clampZ (ratTrunc (((1 - y) - 1/2) * (maxiN width height : ℚ) + ((height / 2 : ℕ) : ℚ)))
    0 ((height : ℤ) - 2)

/-- `sample_density`: nearest-cell lookup into the density grid, `1` when no
density field is attached. -/
def sample_density (ctx : ParCtx) (x y : ℚ) : ℚ :=
  match ctx.density with
  | none => 1
  | some g =>
      gridGet g (densityCellIy g.width g.height y * (g.width : ℤ) +
        densityCellIx g.width g.height x)

/-- Placeholder tile used to model the (unchecked) C array accesses
`ctx->tiles[...]`; it has no points, so it emits nothing. -/
def defaultTile : ParTile := ⟨0, 0, 0, 0, [], [], []⟩

/-- The per-point viewport rejection test shared by the root pass and
`apply_tile`: `px < left || px > right || py < bottom || py > top`. -/
def outsideVp (g : Gen) (px py : ℚ) : Bool :=
  px < g.left || px > g.right || py < g.bottom || py > g.top

/-- The root pass of `par_bluenoise_generate` (its first `for` loop). -/
def rootEmit (ctx : ParCtx) (g : Gen) : List Vec3 :=
  let tile := ctx.tiles.getD 0 defaultTile
  let ntests := (ratTrunc (miniQ (tile.points.length : ℚ) (g.mag * g.global_density))).toNat
  let factor := 1 / g.mag / g.global_density
  (List.range ntests).filterMap fun i =>
    let p := tile.points.getD i ⟨0, 0⟩
    if outsideVp g p.x p.y then none
    else if sample_density ctx p.x p.y < ((i : ℚ) + 1) * factor then none
    else some ⟨p.x - 1/2, p.y - 1/2, (i : ℚ) * factor⟩

/-- The node-skipping test of `apply_tile`:
`x + tileSize < left || x > right || y + tileSize < bottom || y > top`. -/
def skipNode (g : Gen) (x y tileSize : ℚ) : Bool :=
  x + tileSize < g.left || x > g.right || y + tileSize < g.bottom || y > g.top

/-- `threshold = mag / depth * global_density - tile->npoints` with
`depth = nsubtiles^(2*level)`, as computed by `apply_tile`. -/
def nodeThreshold (ctx : ParCtx) (g : Gen) (tile : ParTile) (level : ℕ) : ℚ :=
  g.mag / (ctx.nsubtiles : ℚ) ^ (2 * level) * g.global_density - (tile.points.length : ℚ)

/-- The candidate-point loop of `apply_tile` at one node. -/
def nodeEmit (ctx : ParCtx) (g : Gen) (tile : ParTile) (x y : ℚ) (level : ℕ) : List Vec3 :=
  let tileSize := 1 / (ctx.nsubtiles : ℚ) ^ level
  let depth := (ctx.nsubtiles : ℚ) ^ (2 * level)
  let threshold := nodeThreshold ctx g tile level
  let ntests := (ratTrunc (miniQ (tile.subpts.length : ℚ) threshold)).toNat
  let factor := 1 / g.mag * depth / g.global_density
  (List.range ntests).filterMap fun i =>
    let p := tile.subpts.getD i ⟨0, 0⟩
    let px := x + p.x * tileSize
    let py := y + p.y * tileSize
    if outsideVp g px py then none
    else if sample_density ctx px py < ((i : ℚ) + (tile.points.length : ℚ)) * factor then none
    else some ⟨px - 1/2, py - 1/2, ((level : ℚ) + 1) + (i : ℚ) * factor⟩

/-- The children spawned by `apply_tile` when it recurses: for `ty` then `tx`
in `[0, nsubtiles)`, the tile index `subdivs[0][ty*nsubtiles+tx]` placed at
`(x + tx*scale, y + ty*scale)`. -/
def childList (ctx : ParCtx) (tile : ParTile) (x y scale : ℚ) : List (ℕ × ℚ × ℚ) :=
  (List.range ctx.nsubtiles).flatMap fun ty =>
    (List.range ctx.nsubtiles).map fun tx =>
      ((tile.subdivs.getD 0 []).getD (ty * ctx.nsubtiles + tx) 0,
        x + (tx : ℚ) * scale, y + (ty : ℚ) * scale)

/-- Sequentially runs `f` over a list, appending the emitted points, and
propagating fuel exhaustion (`none`). -/
def optAppendMap (f : α → Option (List Vec3)) : List α → Option (List Vec3)
  | [] => some []
  | a :: rest => do
      let r ← f a
      let rs ← optAppendMap f rest
      pure (r ++ rs)

/-- `apply_tile`: visit one node (tile, origin, level); emit its candidate
points and recurse into its children when `threshold > nsubpts`.  The C code
recurses unboundedly (its termination depends on the tile data); `fuel`
bounds the recursion depth and `none` reports exhaustion. -/
def applyTile (ctx : ParCtx) (g : Gen) : ℕ → ParTile → ℚ → ℚ → ℕ → Option (List Vec3)
  | fuel, tile, x, y, level =>
    if skipNode g x y (1 / (ctx.nsubtiles : ℚ) ^ level) then some []
    else if nodeThreshold ctx g tile level ≤ (tile.subpts.length : ℚ) then
      some (nodeEmit ctx g tile x y level)
    else
      match fuel with
      | 0 => none
      | fuel' + 1 =>
        (optAppendMap
          (fun c => applyTile ctx g fuel' (ctx.tiles.getD c.1 defaultTile) c.2.1 c.2.2
            (level + 1))
          (childList ctx tile x y ((1 / (ctx.nsubtiles : ℚ) ^ level) / (ctx.nsubtiles : ℚ)))).map
          (nodeEmit ctx g tile x y level ++ ·)

/-- The per-call parameters `par_bluenoise_generate` computes before any
emission: translate the viewport by `+0.5`, compute
`mag = powf(top - bottom, -2)` from the unclamped bounds, then clamp all four
bounds to `[0, 1]`. -/
def genOf (density l b r t : ℚ) : Gen :=
  { left := clampQ (l + 1/2) 0 1
    right := clampQ (r + 1/2) 0 1
    bottom := clampQ (b + 1/2) 0 1
    top := clampQ (t + 1/2) 0 1
    mag := (((t + 1/2) - (b + 1/2)) ^ (2 : ℕ))⁻¹
    global_density := density }

/-- `par_bluenoise_generate`: the root pass followed by the recursive descent
from tile 0 at origin `(0,0)`, level 0. -/
def par_bluenoise_generate (ctx : ParCtx) (density l b r t : ℚ) (fuel : ℕ) :
    Option (List Vec3) :=
  let g := genOf density l b r t
  (applyTile ctx g fuel (ctx.tiles.getD 0 defaultTile) 0 0 0).map (rootEmit ctx g ++ ·)

/-- Insert a point into a rank-sorted list, keeping it sorted by rank. -/
def insertByRank (p : Vec3) : List Vec3 → List Vec3
  | [] => [p]
  | q :: rest => if p.rank ≤ q.rank then p :: q :: rest else q :: insertByRank p rest

/-- Sort a point list ascending by rank (models the `qsort` call with the
rank comparator `cmp`). -/
def sortListByRank : List Vec3 → List Vec3
  | [] => []
  | p :: rest => insertByRank p (sortListByRank rest)

/-- `par_bluenoise_sort_by_rank`: sort by rank, then overwrite each rank with
its 0-based position. -/
def par_bluenoise_sort_by_rank (pts : List Vec3) : List Vec3 :=
  (sortListByRank pts).mapIdx fun i p => ⟨p.x, p.y, (i : ℚ)⟩

/-- The concrete single-tile tileset of the end-to-end scenario: one tile,
`nsubtiles = 1`, one subdivision variant, four points, no sub-points, no
density field. -/
def ctx3 : ParCtx :=
  { tiles := [{ n := 0, e := 0, s := 0, w := 0, subdivs := [[0]]
                points := [⟨1/10, 1/10⟩, ⟨3/10, 3/10⟩, ⟨6/10, 6/10⟩, ⟨9/10, 9/10⟩]
                subpts := [] }]
    nsubtiles := 1
    density := none }

/-- Error kind of the density builders (the C code `assert`s). -/
inductive BnError where
  | invalidArgument
deriving DecidableEq, Repr

/-- One byte of the pixel buffer at a (possibly negative) offset;
out-of-buffer reads (undefined behavior in C) are modelled as `0`. -/
def pixelByte (pixels : List ℕ) (off : ℤ) : ℕ :=
  if 0 ≤ off then pixels.getD off.toNat 0 else 0

/-- The 4-byte little-endian read `*((unsigned int*) pixels)` at a byte
offset. -/
def pixelWord (pixels : List ℕ) (off : ℤ) : ℕ :=
  pixelByte pixels off + 256 * pixelByte pixels (off + 1) +
    65536 * pixelByte pixels (off + 2) + 16777216 * pixelByte pixels (off + 3)

/-- The channel mask built by `par_bluenoise_density_from_color` from the
bytes-per-pixel stride. -/
def colorMask (bpp : ℤ) : ℕ :=
  let m1 := 0xff
  let m2 := if bpp > 1 then m1 ||| 0xff00 else m1
  let m3 := if bpp > 2 then m2 ||| 0xff0000 else m2
  if bpp > 3 then m3 ||| 0xff000000 else m3

/-- `par_bluenoise_density_from_color`: build a 0/1 mask from a color key.
The C code `assert(bpp <= 4)`; the assertion failure is modelled as an
`InvalidArgument` error. -/
def par_bluenoise_density_from_color (pixels : List ℕ) (width height : ℕ) (bpp : ℤ)
    (background_color : ℕ) (invert : Bool) : Except BnError DensityGrid :=
  let mask := colorMask bpp
  if 4 < bpp then .error .invalidArgument
  else .ok
    { width := width, height := height
      data := (List.range height).flatMap fun j =>
        (List.range width).map fun i =>
          let val := pixelWord pixels ((j * width + i : ℕ) * bpp) &&& mask
          if invert then (if val = background_color then 1 else 0)
          else (if val ≠ background_color then 1 else 0) }

/-- `par_bluenoise_density_from_gray`: `density[i] = 1 - pixels[i] / 255`
using the first channel of each pixel at stride `bpp`. -/
def par_bluenoise_density_from_gray (pixels : List ℕ) (width height : ℕ) (bpp : ℤ) :
    DensityGrid :=
  { width := width, height := height
    data := (List.range height).flatMap fun j =>
      (List.range width).map fun i =>
        1 - (pixelByte pixels ((j * width + i : ℕ) * bpp) : ℚ) * (1 / 255) }

/-! ## Spec-side definitions

These follow the wording of the specification (not the C code); the claim
theorems compare them with the definitions above. -/

/-- Spec wording for the root pass: "let `threshold = min(rootTile.points.count,
mag * density)`.  For i in [0, threshold): accept `p = points[i]` if p lies
within the clamped viewport AND `sample(p) ≥ (i+1) * (1/(mag*density))`;
accepted points get `rank = i * (1/(mag*density))`."  The index set is the set
of naturals below the real-valued `min`. -/
def rootEmitSpec (ctx : ParCtx) (g : Gen) : List Vec3 :=
  let tile := ctx.tiles.getD 0 defaultTile
  let md := g.mag * g.global_density
  ((List.range tile.points.length).filter fun (i : ℕ) => decide ((i : ℚ) < md)).filterMap fun i =>
    let p := tile.points.getD i ⟨0, 0⟩
    if (g.left ≤ p.x ∧ p.x ≤ g.right ∧ g.bottom ≤ p.y ∧ p.y ≤ g.top) ∧
        ((i : ℚ) + 1) * (1 / md) ≤ sample_density ctx p.x p.y then
      some ⟨p.x - 1/2, p.y - 1/2, (i : ℚ) * (1 / md)⟩
    else none

/-- Spec wording for one descent node, with the candidate count amended to the
integer truncation `trunc(min(T.subPoints.count, threshold))`:
`depth = subtilesPerLevel^(2L)`, `threshold = mag/depth*density − count`,
`factor = depth/(mag*density)`; accept `origin + subPoints[i]*tileSize` if it
is inside the clamped viewport and `sample ≥ (i + count) * factor`, with rank
`(L+1) + i*factor`. -/
def nodeEmitSpec (ctx : ParCtx) (g : Gen) (tile : ParTile) (x y : ℚ) (level : ℕ) : List Vec3 :=
  let tileSize := 1 / (ctx.nsubtiles : ℚ) ^ level
  let depth := (ctx.nsubtiles : ℚ) ^ (2 * level)
  let threshold := g.mag / depth * g.global_density - (tile.points.length : ℚ)
  let factor := depth / (g.mag * g.global_density)
  (List.range (ratTrunc (miniQ (tile.subpts.length : ℚ) threshold)).toNat).filterMap fun i =>
    let p := tile.subpts.getD i ⟨0, 0⟩
    let px := x + p.x * tileSize
    let py := y + p.y * tileSize
    if (g.left ≤ px ∧ px ≤ g.right ∧ g.bottom ≤ py ∧ py ≤ g.top) ∧
        ((i : ℚ) + (tile.points.length : ℚ)) * factor ≤ sample_density ctx px py then
      some ⟨px - 1/2, py - 1/2, ((level : ℚ) + 1) + (i : ℚ) * factor⟩
    else none

/-- The claim's literal candidate range for a descent node: every natural `i`
with `i < min(T.subPoints.count, threshold)` as a real-valued bound (no
truncation). -/
def nodeEmitSpecLit (ctx : ParCtx) (g : Gen) (tile : ParTile) (x y : ℚ) (level : ℕ) :
    List Vec3 :=
  let tileSize := 1 / (ctx.nsubtiles : ℚ) ^ level
  let depth := (ctx.nsubtiles : ℚ) ^ (2 * level)
  let threshold := g.mag / depth * g.global_density - (tile.points.length : ℚ)
  let factor := depth / (g.mag * g.global_density)
  ((List.range tile.subpts.length).filter fun (i : ℕ) =>
      decide ((i : ℚ) < miniQ (tile.subpts.length : ℚ) threshold)).filterMap fun i =>
    let p := tile.subpts.getD i ⟨0, 0⟩
    let px := x + p.x * tileSize
    let py := y + p.y * tileSize
    if (g.left ≤ px ∧ px ≤ g.right ∧ g.bottom ≤ py ∧ py ≤ g.top) ∧
        ((i : ℚ) + (tile.points.length : ℚ)) * factor ≤ sample_density ctx px py then
      some ⟨px - 1/2, py - 1/2, ((level : ℚ) + 1) + (i : ℚ) * factor⟩
    else none

/-- The node footprint `[x, x+tileSize] × [y, y+tileSize]` intersects the
clamped viewport rectangle (as sets of points). -/
def footprintMeets (g : Gen) (x y tileSize : ℚ) : Prop :=
  ∃ px py, x ≤ px ∧ px ≤ x + tileSize ∧ y ≤ py ∧ py ≤ y + tileSize ∧
    g.left ≤ px ∧ px ≤ g.right ∧ g.bottom ≤ py ∧ py ≤ g.top

/-- Spec wording for the children of a spawning node: `subtilesPerLevel²`
children on a regular sub-grid of the parent's footprint, child `(tx, ty)`
bound to the tile `subdivisionMaps[0][ty*subtilesPerLevel + tx]`. -/
def childListSpec (ctx : ParCtx) (tile : ParTile) (x y : ℚ) (level : ℕ) : List (ℕ × ℚ × ℚ) :=
  let step := (1 / (ctx.nsubtiles : ℚ) ^ level) / (ctx.nsubtiles : ℚ)
  (List.range ctx.nsubtiles).flatMap fun ty =>
    (List.range ctx.nsubtiles).map fun tx =>
      ((tile.subdivs.getD 0 []).getD (ty * ctx.nsubtiles + tx) 0,
        x + (tx : ℚ) * step, y + (ty : ℚ) * step)

/-- All stored density values are at most 1 (true of both density builders;
vacuously true when no density field is attached). -/
def densValuesLe1 (ctx : ParCtx) : Bool :=
  match ctx.density with
  | none => true
  | some g => g.data.all fun v => decide (v ≤ 1)

/-! ## Concrete inputs used by counterexamples and witnesses -/

/-- Tileset exhibiting the fractional-candidate-count discrepancy of the
descent pass: no own points, three identical sub-points at the tile center. -/
def ctxC2 : ParCtx :=
  { tiles := [{ n := 0, e := 0, s := 0, w := 0, subdivs := [[0]]
                points := []
                subpts := [⟨1/2, 1/2⟩, ⟨1/2, 1/2⟩, ⟨1/2, 1/2⟩] }]
    nsubtiles := 1
    density := none }

/-- Generation parameters with `mag * density = 5/2`, a non-integer candidate
bound. -/
def genC2 : Gen :=
  { left := 0, bottom := 0, right := 1, top := 1, mag := 1, global_density := 5/2 }

/-- Tileset whose root tile has one point lying exactly on the line
`x = 1/4` of the unit square. -/
def ctx7 : ParCtx :=
  { tiles := [{ n := 0, e := 0, s := 0, w := 0, subdivs := [[0]]
                points := [⟨1/4, 1/2⟩]
                subpts := [] }]
    nsubtiles := 1
    density := none }

/-- A `1 × 1` density grid whose single stored value is `7`. -/
def grid9 : DensityGrid := { width := 1, height := 1, data := [7] }

/-- A context with the `1 × 1` density field attached. -/
def ctx9 : ParCtx := { tiles := [], nsubtiles := 1, density := some grid9 }

/-! ## Claim theorems (concrete, decidable ones) -/

/-- C3: on the tileset with one tile, `subtilesPerAxis = 1`, one subdivision
variant, four root points and no sub-points and no density field,
`generate(density = 4, -0.5, -0.5, 0.5, 0.5)` returns exactly the four points
shifted to centered coordinates `(-0.4,-0.4), (-0.2,-0.2), (0.1,0.1),
(0.4,0.4)` with pre-sort ranks `0, 0.25, 0.5, 0.75`, and `sort_by_rank`
then assigns them ranks `0, 1, 2, 3`. -/
theorem C3_end_to_end_scenario :
    par_bluenoise_generate ctx3 4 (-(1/2)) (-(1/2)) (1/2) (1/2) 1 =
      some [⟨-(2/5), -(2/5), 0⟩, ⟨-(1/5), -(1/5), 1/4⟩, ⟨1/10, 1/10, 1/2⟩, ⟨2/5, 2/5, 3/4⟩] ∧
    par_bluenoise_sort_by_rank
        [⟨-(2/5), -(2/5), 0⟩, ⟨-(1/5), -(1/5), 1/4⟩, ⟨1/10, 1/10, 1/2⟩, ⟨2/5, 2/5, 3/4⟩] =
      [⟨-(2/5), -(2/5), 0⟩, ⟨-(1/5), -(1/5), 1⟩, ⟨1/10, 1/10, 2⟩, ⟨2/5, 2/5, 3⟩] := by
  decide

/-- C2 counterexample: with `mag * density = 5/2` the claim's candidate range
`[0, min(subPoints.count, threshold))` contains the index 2 (since
`2 < 5/2`), and the described rule accepts that third point, but the code's
candidate count is the int-truncated `(int) min(3, 2.5) = 2`, so the node
emits only two points.  The node output therefore differs from the claim's
description. -/
theorem C2_counterexample :
    nodeEmit ctxC2 genC2 (ctxC2.tiles.getD 0 defaultTile) 0 0 0 ≠
      nodeEmitSpecLit ctxC2 genC2 (ctxC2.tiles.getD 0 defaultTile) 0 0 0 ∧
    (nodeEmit ctxC2 genC2 (ctxC2.tiles.getD 0 defaultTile) 0 0 0).length = 2 ∧
    (nodeEmitSpecLit ctxC2 genC2 (ctxC2.tiles.getD 0 defaultTile) 0 0 0).length = 3 := by
  decide

/-- C7 counterexample: the fully degenerate viewport `left = right = -1/4`
does NOT yield zero points: the root tile's point `(1/4, 1/2)` lies exactly
on the degenerate line and is returned. -/
theorem C7_counterexample :
    par_bluenoise_generate ctx7 1 (-(1/4)) (-(1/2)) (-(1/4)) (1/2) 1 =
      some [⟨-(1/4), 0, 0⟩] ∧
    (par_bluenoise_generate ctx7 1 (-(1/4)) (-(1/2)) (-(1/4)) (1/2) 1).map List.length ≠
      some 0 := by
  decide

/-- C9 counterexample: for an attached `1 × 1` density field the clamp upper
bound `width - 2 = -1` is negative, so the computed cell indices are `-1`:
not valid grid indices.  The modelled out-of-bounds read returns the junk
value `0`, which is not the stored scalar of any cell (the only stored value
is `7`). -/
theorem C9_counterexample :
    densityCellIx 1 1 (1/2) = -1 ∧ densityCellIy 1 1 (1/2) = -1 ∧
    sample_density ctx9 (1/2) (1/2) = 0 ∧ (0 : ℚ) ∉ grid9.data := by
  decide

/-! ## Basic lemmas about the helpers -/

theorem miniQ_eq_min (a b : ℚ) : miniQ a b = min a b := by
  unfold miniQ
  rcases lt_trichotomy a b with h | h | h
  · rw [if_pos h, min_eq_left h.le]
  · rw [if_neg (by simp [h]), h, min_self]
  · rw [if_neg (by simp [not_lt.mpr h.le]), min_eq_right h.le]

theorem ratFloor_eq (q : ℚ) : Rat.floor q = ⌊q⌋ := rfl

theorem ratTrunc_toNat (q : ℚ) : (ratTrunc q).toNat = ⌊q⌋₊ := by
  unfold ratTrunc
  split
  · rename_i h
    have h1 : ⌊q⌋₊ = 0 := Nat.floor_of_nonpos h.le
    have h2 : (0 : ℤ) ≤ Rat.floor (-q) := by
      rw [ratFloor_eq]
      exact Int.floor_nonneg.mpr (by linarith)
    omega
  · rw [ratFloor_eq, Int.floor_toNat]

theorem trunc_miniQ_natCast (c : ℕ) (m : ℚ) :
    (ratTrunc (miniQ (c : ℚ) m)).toNat = min c ⌊m⌋₊ := by
  rw [miniQ_eq_min, ratTrunc_toNat]
  rcases le_total (c : ℚ) m with h | h
  · rw [min_eq_left h, Nat.floor_natCast, min_eq_left (Nat.le_floor h)]
  · rw [min_eq_right h, min_eq_right ((Nat.floor_le_floor h).trans_eq (Nat.floor_natCast c))]

theorem getD_mem_or (l : List α) (n : ℕ) (d : α) : l.getD n d ∈ l ∨ l.getD n d = d := by
  induction l generalizing n with
  | nil => right; rfl
  | cons a t ih =>
      cases n with
      | zero => left; simp [List.getD]
      | succ k =>
          rcases ih k with h | h
          · left; simp only [List.getD_cons_succ]; exact List.mem_cons_of_mem a h
          · right; simpa using h

theorem sample_density_le_one (ctx : ParCtx) (hd : densValuesLe1 ctx = true) (x y : ℚ) :
    sample_density ctx x y ≤ 1 := by
  unfold sample_density
  unfold densValuesLe1 at hd
  cases hopt : ctx.density with
  | none => simp
  | some g =>
      rw [hopt] at hd
      simp only [List.all_eq_true, decide_eq_true_eq] at hd
      dsimp only
      unfold gridGet
      split
      · rcases getD_mem_or g.data (densityCellIy g.width g.height y * (g.width : ℤ) +
            densityCellIx g.width g.height x).toNat 0 with hm | hm
        · exact hd _ hm
        · rw [hm]; norm_num
      · norm_num

theorem outsideVp_eq_false (g : Gen) (px py : ℚ) :
    outsideVp g px py = false ↔ (g.left ≤ px ∧ px ≤ g.right ∧ g.bottom ≤ py ∧ py ≤ g.top) := by
  unfold outsideVp
  simp [not_lt, and_assoc]

/-! ## Membership lemmas: every emitted point lies in the clamped viewport -/

/-- The point `p`, shifted back by `+1/2`, lies inside the viewport rectangle
carried by `g`. -/
def inVp (g : Gen) (p : Vec3) : Prop :=
  g.left ≤ p.x + 1/2 ∧ p.x + 1/2 ≤ g.right ∧ g.bottom ≤ p.y + 1/2 ∧ p.y + 1/2 ≤ g.top

theorem rootEmit_inVp (ctx : ParCtx) (g : Gen) (p : Vec3) (hp : p ∈ rootEmit ctx g) :
    inVp g p := by
  unfold rootEmit at hp
  simp only [List.mem_filterMap, List.mem_range] at hp
  obtain ⟨i, _, heq⟩ := hp
  split at heq
  · exact absurd heq (by simp)
  · split at heq
    · exact absurd heq (by simp)
    · rename_i hout _
      rw [Bool.not_eq_true] at hout
      rw [outsideVp_eq_false] at hout
      obtain ⟨h1, h2, h3, h4⟩ := hout
      obtain rfl := Option.some.inj heq
      refine ⟨by dsimp; linarith, by dsimp; linarith, by dsimp; linarith, by dsimp; linarith⟩

theorem nodeEmit_inVp (ctx : ParCtx) (g : Gen) (tile : ParTile) (x y : ℚ) (level : ℕ)
    (p : Vec3) (hp : p ∈ nodeEmit ctx g tile x y level) : inVp g p := by
  unfold nodeEmit at hp
  simp only [List.mem_filterMap, List.mem_range] at hp
  obtain ⟨i, _, heq⟩ := hp
  split at heq
  · exact absurd heq (by simp)
  · split at heq
    · exact absurd heq (by simp)
    · rename_i hout _
      rw [Bool.not_eq_true] at hout
      rw [outsideVp_eq_false] at hout
      obtain ⟨h1, h2, h3, h4⟩ := hout
      obtain rfl := Option.some.inj heq
      refine ⟨by dsimp; linarith, by dsimp; linarith, by dsimp; linarith, by dsimp; linarith⟩

theorem optAppendMap_eq_some {f : α → Option (List Vec3)} :
    ∀ {l : List α} {r : List Vec3}, optAppendMap f l = some r →
      ∀ p ∈ r, ∃ a ∈ l, ∃ ra, f a = some ra ∧ p ∈ ra := by
  intro l
  induction l with
  | nil =>
      intro r h p hp
      unfold optAppendMap at h
      obtain rfl := Option.some.inj h
      exact absurd hp (by simp)
  | cons a rest ih =>
      intro r h p hp
      unfold optAppendMap at h
      cases hfa : f a with
      | none => rw [hfa] at h; exact absurd h (by simp)
      | some ra =>
          rw [hfa] at h
          cases hrest : optAppendMap f rest with
          | none => rw [hrest] at h; exact absurd h (by simp)
          | some rs =>
              rw [hrest] at h
              simp only [Option.bind_some, Option.pure_def] at h
              obtain rfl := Option.some.inj h
              rcases List.mem_append.mp hp with hin | hin
              · exact ⟨a, List.mem_cons_self a rest, ra, hfa, hin⟩
              · obtain ⟨b, hb, rb, hrb, hpb⟩ := ih hrest p hin
                exact ⟨b, List.mem_cons_of_mem a hb, rb, hrb, hpb⟩

theorem applyTile_inVp (ctx : ParCtx) (g : Gen) :
    ∀ (fuel : ℕ) (tile : ParTile) (x y : ℚ) (level : ℕ) (r : List Vec3),
      applyTile ctx g fuel tile x y level = some r → ∀ p ∈ r, inVp g p := by
  intro fuel
  induction fuel with
  | zero =>
      intro tile x y level r h p hp
      rw [applyTile] at h
      split at h
      · obtain rfl := Option.some.inj h; exact absurd hp (by simp)
      · split at h
        · obtain rfl := Option.some.inj h
          exact nodeEmit_inVp ctx g tile x y level p hp
        · exact absurd h (by simp)
  | succ n ih =>
      intro tile x y level r h p hp
      rw [applyTile] at h
      split at h
      · obtain rfl := Option.some.inj h; exact absurd hp (by simp)
      · split at h
        · obtain rfl := Option.some.inj h
          exact nodeEmit_inVp ctx g tile x y level p hp
        · rw [Option.map_eq_some'] at h
          obtain ⟨rc, hrc, rfl⟩ := h
          rcases List.mem_append.mp hp with hin | hin
          · exact nodeEmit_inVp ctx g tile x y level p hin
          · obtain ⟨c, _, ra, hra, hpa⟩ := optAppendMap_eq_some hrc p hin
            exact ih (ctx.tiles.getD c.1 defaultTile) c.2.1 c.2.2 (level + 1) ra hra p hpa

theorem generate_inVp (ctx : ParCtx) (density vl vb vr vt : ℚ) (fuel : ℕ) (pts : List Vec3)
    (hgen : par_bluenoise_generate ctx density vl vb vr vt fuel = some pts) :
    ∀ p ∈ pts, inVp (genOf density vl vb vr vt) p := by
  intro p hp
  unfold par_bluenoise_generate at hgen
  rw [Option.map_eq_some'] at hgen
  obtain ⟨rc, hrc, rfl⟩ := hgen
  rcases List.mem_append.mp hp with hin | hin
  · exact rootEmit_inVp ctx (genOf density vl vb vr vt) p hin
  · exact applyTile_inVp ctx (genOf density vl vb vr vt) fuel _ 0 0 0 rc hrc p hin

/-- C4: every point returned by `generate(density, L, B, R, T)` lies, after
adding back the `0.5` shift, inside the clamped viewport rectangle
`[clamp(L+0.5), clamp(R+0.5)] × [clamp(B+0.5), clamp(T+0.5)]` (the same
translate-then-clamp transform `generate` applies internally). -/
theorem C4_viewport_containment (ctx : ParCtx) (density vl vb vr vt : ℚ) (fuel : ℕ)
    (pts : List Vec3)
    (hgen : par_bluenoise_generate ctx density vl vb vr vt fuel = some pts) :
    ∀ p ∈ pts,
      clampQ (vl + 1/2) 0 1 ≤ p.x + 1/2 ∧ p.x + 1/2 ≤ clampQ (vr + 1/2) 0 1 ∧
      clampQ (vb + 1/2) 0 1 ≤ p.y + 1/2 ∧ p.y + 1/2 ≤ clampQ (vt + 1/2) 0 1 := by
  intro p hp
  exact generate_inVp ctx density vl vb vr vt fuel pts hgen p hp

/-- C4 witness: the containment theorem applied to the concrete end-to-end
scenario run. -/
theorem C4_viewport_containment_witness :
    par_bluenoise_generate ctx3 4 (-(1/2)) (-(1/2)) (1/2) (1/2) 1 =
      some [⟨-(2/5), -(2/5), 0⟩, ⟨-(1/5), -(1/5), 1/4⟩, ⟨1/10, 1/10, 1/2⟩, ⟨2/5, 2/5, 3/4⟩] ∧
    (∀ p ∈ [(⟨-(2/5), -(2/5), 0⟩ : Vec3), ⟨-(1/5), -(1/5), 1/4⟩, ⟨1/10, 1/10, 1/2⟩,
        ⟨2/5, 2/5, 3/4⟩],
      clampQ (-(1/2) + 1/2) 0 1 ≤ p.x + 1/2 ∧ p.x + 1/2 ≤ clampQ (1/2 + 1/2) 0 1 ∧
      clampQ (-(1/2) + 1/2) 0 1 ≤ p.y + 1/2 ∧ p.y + 1/2 ≤ clampQ (1/2 + 1/2) 0 1) :=
  ⟨by decide, C4_viewport_containment ctx3 4 (-(1/2)) (-(1/2)) (1/2) (1/2) 1 _ (by decide)⟩

/-- C7 (amended): a fully degenerate viewport does not yield an error in the
model, but it can return points: exactly those lying on the degenerate line.
Every returned point sits on the (clamped, translated) line `x = left`
when `left = right`, resp. `y = bottom` when `bottom = top`. -/
theorem C7_degenerate_viewport (ctx : ParCtx) (density vl vb vr vt : ℚ) (fuel : ℕ)
    (pts : List Vec3)
    (hgen : par_bluenoise_generate ctx density vl vb vr vt fuel = some pts) :
    (vl = vr → ∀ p ∈ pts, p.x + 1/2 = clampQ (vl + 1/2) 0 1) ∧
    (vb = vt → ∀ p ∈ pts, p.y + 1/2 = clampQ (vb + 1/2) 0 1) := by
  constructor
  · intro hlr p hp
    obtain ⟨h1, h2, _, _⟩ := generate_inVp ctx density vl vb vr vt fuel pts hgen p hp
    have : clampQ (vr + 1/2) 0 1 = clampQ (vl + 1/2) 0 1 := by rw [hlr]
    rw [show (genOf density vl vb vr vt).left = clampQ (vl + 1/2) 0 1 from rfl] at h1
    rw [show (genOf density vl vb vr vt).right = clampQ (vr + 1/2) 0 1 from rfl, this] at h2
    linarith
  · intro hbt p hp
    obtain ⟨_, _, h3, h4⟩ := generate_inVp ctx density vl vb vr vt fuel pts hgen p hp
    have : clampQ (vt + 1/2) 0 1 = clampQ (vb + 1/2) 0 1 := by rw [hbt]
    rw [show (genOf density vl vb vr vt).bottom = clampQ (vb + 1/2) 0 1 from rfl] at h3
    rw [show (genOf density vl vb vr vt).top = clampQ (vt + 1/2) 0 1 from rfl, this] at h4
    linarith

/-- C7 witness: the amended theorem applied to the degenerate-viewport run
that returns the single point on the line. -/
theorem C7_degenerate_viewport_witness :
    par_bluenoise_generate ctx7 1 (-(1/4)) (-(1/2)) (-(1/4)) (1/2) 1 =
      some [⟨-(1/4), 0, 0⟩] ∧
    (((-(1/4) : ℚ)) = -(1/4) →
      ∀ p ∈ [(⟨-(1/4), 0, 0⟩ : Vec3)], p.x + 1/2 = clampQ (-(1/4) + 1/2) 0 1) :=
  ⟨by decide,
    (C7_degenerate_viewport ctx7 1 (-(1/4)) (-(1/2)) (-(1/4)) (1/2) 1 _ (by decide)).1⟩

/-! ## Output-buffer model (for the determinism/overwrite claim) -/

/-- A context together with its persistent output buffer (`ctx->points` in C;
the C buffer has fixed capacity `maxpoints` and `generate` writes from index
0 on every call). -/
structure CtxState where
  ctx : ParCtx
  buffer : List Vec3
deriving DecidableEq, Repr

/-- Overwriting the front of the old buffer with the newly generated points:
positions `0 .. new.length-1` are rewritten, the tail keeps its old
contents. -/
def writeBuffer (old new : List Vec3) : List Vec3 := new ++ old.drop new.length

/-- `par_bluenoise_generate` as a state transformer on the context: reset the
write cursor to 0, generate, overwrite the buffer, and return the view of the
first `npts` buffer entries together with the updated state. -/
def runGenerate (s : CtxState) (density vl vb vr vt : ℚ) (fuel : ℕ) :
    Option (List Vec3 × CtxState) :=
  match par_bluenoise_generate s.ctx density vl vb vr vt fuel with
  | none => none
  | some pts =>
      some ((writeBuffer s.buffer pts).take pts.length, ⟨s.ctx, writeBuffer s.buffer pts⟩)

/-- C6: on an unchanged context, a second `generate` call with identical
arguments returns the identical view (same count, coordinates and pre-sort
ranks) and leaves the state fixed; the buffer is overwritten from position 0
(not appended to), and the returned view does not depend on the previous
buffer contents. -/
theorem C6_deterministic_overwrite (s : CtxState) (density vl vb vr vt : ℚ) (fuel : ℕ)
    (pts : List Vec3) (s' : CtxState)
    (h1 : runGenerate s density vl vb vr vt fuel = some (pts, s')) :
    runGenerate s' density vl vb vr vt fuel = some (pts, s') ∧
    s'.ctx = s.ctx ∧
    s'.buffer = pts ++ s.buffer.drop pts.length ∧
    (∀ u : CtxState, u.ctx = s.ctx →
      runGenerate u density vl vb vr vt fuel =
        some (pts, ⟨u.ctx, writeBuffer u.buffer pts⟩)) := by
  unfold runGenerate at h1
  cases hg : par_bluenoise_generate s.ctx density vl vb vr vt fuel with
  | none => rw [hg] at h1; exact absurd h1 (by simp)
  | some pts0 =>
      rw [hg] at h1
      dsimp only at h1
      have hview : List.take pts0.length (writeBuffer s.buffer pts0) = pts0 := by
        unfold writeBuffer
        exact List.take_left pts0 (s.buffer.drop pts0.length)
      rw [hview] at h1
      have hpair := Option.some.inj h1
      have hpts : pts = pts0 := (congrArg Prod.fst hpair).symm
      have hs' : s' = ⟨s.ctx, writeBuffer s.buffer pts0⟩ := (congrArg Prod.snd hpair).symm
      subst hpts
      subst hs'
      refine ⟨?_, rfl, rfl, ?_⟩
      · unfold runGenerate
        dsimp only
        rw [hg]
        dsimp only
        have hbuf : writeBuffer (writeBuffer s.buffer pts) pts = writeBuffer s.buffer pts := by
          unfold writeBuffer
          rw [List.drop_left pts (s.buffer.drop pts.length)]
        rw [hbuf, hview]
      · intro u hu
        unfold runGenerate
        rw [hu, hg]
        dsimp only
        have hview2 : List.take pts.length (writeBuffer u.buffer pts) = pts := by
          unfold writeBuffer
          exact List.take_left pts (u.buffer.drop pts.length)
        rw [hview2]

/-- C6 witness: the theorem applied to the end-to-end scenario with a stale
single-entry buffer. -/
theorem C6_deterministic_overwrite_witness :
    runGenerate ⟨ctx3, [⟨9, 9, 9⟩]⟩ 4 (-(1/2)) (-(1/2)) (1/2) (1/2) 1 =
      some ([⟨-(2/5), -(2/5), 0⟩, ⟨-(1/5), -(1/5), 1/4⟩, ⟨1/10, 1/10, 1/2⟩, ⟨2/5, 2/5, 3/4⟩],
        ⟨ctx3, [⟨-(2/5), -(2/5), 0⟩, ⟨-(1/5), -(1/5), 1/4⟩, ⟨1/10, 1/10, 1/2⟩,
          ⟨2/5, 2/5, 3/4⟩]⟩) ∧
    runGenerate ⟨ctx3, [⟨-(2/5), -(2/5), 0⟩, ⟨-(1/5), -(1/5), 1/4⟩, ⟨1/10, 1/10, 1/2⟩,
        ⟨2/5, 2/5, 3/4⟩]⟩ 4 (-(1/2)) (-(1/2)) (1/2) (1/2) 1 =
      some ([⟨-(2/5), -(2/5), 0⟩, ⟨-(1/5), -(1/5), 1/4⟩, ⟨1/10, 1/10, 1/2⟩, ⟨2/5, 2/5, 3/4⟩],
        ⟨ctx3, [⟨-(2/5), -(2/5), 0⟩, ⟨-(1/5), -(1/5), 1/4⟩, ⟨1/10, 1/10, 1/2⟩,
          ⟨2/5, 2/5, 3/4⟩]⟩) :=
  ⟨by decide,
    (C6_deterministic_overwrite ⟨ctx3, [⟨9, 9, 9⟩]⟩ 4 (-(1/2)) (-(1/2)) (1/2) (1/2) 1 _ _
      (by decide)).1⟩

/-! ## Rank bands (levels separate in rank) -/

/-- C10: with `mag * density > 0`, the root pass only emits pre-sort ranks in
`[0, 1)`; a descent node at level `L` only emits pre-sort ranks in
`[L+1, L+2)`; consequently points of a shallower level always sort before
points of any deeper level (and root-pass points before all descent
points). -/
theorem C10_rank_bands (ctx : ParCtx) (g : Gen)
    (hmd : 0 < g.mag * g.global_density) :
    (∀ p ∈ rootEmit ctx g, 0 ≤ p.rank ∧ p.rank < 1) ∧
    (∀ (tile : ParTile) (x y : ℚ) (level : ℕ), ∀ p ∈ nodeEmit ctx g tile x y level,
      (level : ℚ) + 1 ≤ p.rank ∧ p.rank < (level : ℚ) + 2) ∧
    (∀ (t₁ t₂ : ParTile) (x₁ y₁ x₂ y₂ : ℚ) (l₁ l₂ : ℕ), l₁ < l₂ →
      ∀ p ∈ nodeEmit ctx g t₁ x₁ y₁ l₁, ∀ q ∈ nodeEmit ctx g t₂ x₂ y₂ l₂,
        p.rank < q.rank) ∧
    (∀ p ∈ rootEmit ctx g, ∀ (tile : ParTile) (x y : ℚ) (level : ℕ),
      ∀ q ∈ nodeEmit ctx g tile x y level, p.rank < q.rank) := by
  have hroot : ∀ p ∈ rootEmit ctx g, 0 ≤ p.rank ∧ p.rank < 1 := by
    intro p hp
    unfold rootEmit at hp
    simp only [List.mem_filterMap, List.mem_range] at hp
    obtain ⟨i, hi, heq⟩ := hp
    split at heq
    · exact absurd heq (by simp)
    · split at heq
      · exact absurd heq (by simp)
      · obtain rfl := Option.some.inj heq
        dsimp only
        rw [trunc_miniQ_natCast] at hi
        have hifl : i < ⌊g.mag * g.global_density⌋₊ := lt_of_lt_of_le hi (min_le_right _ _)
        have h0 : (0 : ℚ) ≤ g.mag * g.global_density := hmd.le
        have him : (i : ℚ) < g.mag * g.global_density := by
          have h1 : ((i : ℕ) : ℚ) + 1 ≤ (⌊g.mag * g.global_density⌋₊ : ℚ) := by
            exact_mod_cast Nat.succ_le_of_lt hifl
          have h2 := Nat.floor_le h0
          linarith
        constructor
        · have : (0 : ℚ) ≤ 1 / g.mag / g.global_density := by
            rw [div_div]
            positivity
          positivity
        · rw [div_div, mul_one_div]
          rw [div_lt_one hmd]
          exact him
  have hnode : ∀ (tile : ParTile) (x y : ℚ) (level : ℕ), ∀ p ∈ nodeEmit ctx g tile x y level,
      (level : ℚ) + 1 ≤ p.rank ∧ p.rank < (level : ℚ) + 2 := by
    intro tile x y level p hp
    unfold nodeEmit at hp
    simp only [List.mem_filterMap, List.mem_range] at hp
    obtain ⟨i, hi, heq⟩ := hp
    split at heq
    · exact absurd heq (by simp)
    · split at heq
      · exact absurd heq (by simp)
      · obtain rfl := Option.some.inj heq
        dsimp only
        rw [trunc_miniQ_natCast] at hi
        have hifl : i < ⌊nodeThreshold ctx g tile level⌋₊ :=
          lt_of_lt_of_le hi (min_le_right _ _)
        have hth0 : (0 : ℚ) ≤ nodeThreshold ctx g tile level := by
          by_contra hneg
          rw [Nat.floor_of_nonpos (le_of_not_le hneg)] at hifl
          omega
        have hiq : (i : ℚ) + (tile.points.length : ℚ) + 1 ≤
            g.mag / (ctx.nsubtiles : ℚ) ^ (2 * level) * g.global_density := by
          have h1 : ((i : ℕ) : ℚ) + 1 ≤ (⌊nodeThreshold ctx g tile level⌋₊ : ℚ) := by
            exact_mod_cast Nat.succ_le_of_lt hifl
          have h2 := Nat.floor_le hth0
          have h3 : nodeThreshold ctx g tile level =
              g.mag / (ctx.nsubtiles : ℚ) ^ (2 * level) * g.global_density -
                (tile.points.length : ℚ) := rfl
          linarith
        set depth := (ctx.nsubtiles : ℚ) ^ (2 * level) with hdepth
        have hdep0 : 0 ≤ depth := by positivity
        have hfac : 1 / g.mag * depth / g.global_density =
            depth / (g.mag * g.global_density) := by
          rw [one_div_mul_eq_div, div_div]
        have hdeppos : 0 < depth := by
          rcases lt_or_eq_of_le hdep0 with h | h
          · exact h
          · exfalso
            rw [div_mul_eq_mul_div, ← h] at hiq
            rw [div_zero] at hiq
            have : (0 : ℚ) ≤ (i : ℚ) + (tile.points.length : ℚ) := by positivity
            linarith
        have hfacpos : 0 < 1 / g.mag * depth / g.global_density := by
          rw [hfac]
          exact div_pos hdeppos hmd
        constructor
        · nlinarith [mul_nonneg (by positivity : (0:ℚ) ≤ (i:ℚ))
            (le_of_lt hfacpos)]
        · have hkey : ((i : ℚ) + (tile.points.length : ℚ)) *
              (1 / g.mag * depth / g.global_density) < 1 := by
            rw [div_mul_eq_mul_div] at hiq
            have h3 : (i : ℚ) + (tile.points.length : ℚ) <
                g.mag * g.global_density / depth := by linarith
            rw [lt_div_iff₀ hdeppos] at h3
            rw [hfac, ← mul_div_assoc, div_lt_one hmd]
            exact h3
          have hle : (i : ℚ) * (1 / g.mag * depth / g.global_density) ≤
              ((i : ℚ) + (tile.points.length : ℚ)) * (1 / g.mag * depth / g.global_density) := by
            have : (0 : ℚ) ≤ (tile.points.length : ℚ) := by positivity
            nlinarith
          linarith
  refine ⟨hroot, hnode, ?_, ?_⟩
  · intro t₁ t₂ x₁ y₁ x₂ y₂ l₁ l₂ hl p hp q hq
    obtain ⟨_, hp2⟩ := hnode t₁ x₁ y₁ l₁ p hp
    obtain ⟨hq1, _⟩ := hnode t₂ x₂ y₂ l₂ q hq
    have : (l₁ : ℚ) + 1 ≤ (l₂ : ℚ) := by exact_mod_cast Nat.succ_le_of_lt hl
    linarith
  · intro p hp tile x y level q hq
    obtain ⟨_, hp2⟩ := hroot p hp
    obtain ⟨hq1, _⟩ := hnode tile x y level q hq
    have : (0 : ℚ) ≤ (level : ℚ) := by positivity
    linarith

/-- C10 witness: the rank-band theorem applied to the end-to-end scenario,
where `mag * density = 4 > 0`. -/
theorem C10_rank_bands_witness :
    (0 < (genOf 4 (-(1/2)) (-(1/2)) (1/2) (1/2)).mag *
      (genOf 4 (-(1/2)) (-(1/2)) (1/2) (1/2)).global_density) ∧
    (∀ p ∈ rootEmit ctx3 (genOf 4 (-(1/2)) (-(1/2)) (1/2) (1/2)),
      0 ≤ p.rank ∧ p.rank < 1) :=
  ⟨by decide, (C10_rank_bands ctx3 (genOf 4 (-(1/2)) (-(1/2)) (1/2) (1/2)) (by decide)).1⟩

/-! ## Monotonicity in density -/

/-- The same generation parameters with the global density replaced. -/
def setDensity (g : Gen) (d : ℚ) : Gen := { g with global_density := d }

theorem length_filterMap_mono {f h : α → Option β} :
    ∀ l : List α, (∀ a ∈ l, (f a).isSome → (h a).isSome) →
      (l.filterMap f).length ≤ (l.filterMap h).length := by
  intro l
  induction l with
  | nil => intro _; simp
  | cons a t ih =>
      intro himp
      rw [List.filterMap_cons, List.filterMap_cons]
      have htail := ih fun b hb => himp b (List.mem_cons_of_mem a hb)
      cases hfa : f a with
      | none =>
          cases hha : h a with
          | none => exact htail
          | some vb =>
              simp only [List.length_cons]
              exact le_trans htail (Nat.le_succ _)
      | some va =>
          have hsome : (h a).isSome := himp a (List.mem_cons_self a t) (by rw [hfa]; rfl)
          cases hha : h a with
          | none => rw [hha] at hsome; exact absurd hsome (by simp)
          | some vb =>
              simp only [List.length_cons]
              exact Nat.succ_le_succ htail

theorem length_filterMap_range_mono {f : ℕ → Option β} (n m : ℕ) (hnm : n ≤ m) :
    ((List.range n).filterMap f).length ≤ ((List.range m).filterMap f).length := by
  obtain ⟨k, rfl⟩ := Nat.exists_eq_add_of_le hnm
  rw [List.range_add, List.filterMap_append, List.length_append]
  exact Nat.le_add_right _ _

theorem rootEmit_length_mono (ctx : ParCtx) (g : Gen) (d1 : ℚ)
    (hd : d1 ≤ g.global_density) (hM : 0 ≤ g.mag) :
    (rootEmit ctx (setDensity g d1)).length ≤ (rootEmit ctx g).length := by
  unfold rootEmit
  dsimp only
  set tile := ctx.tiles.getD 0 defaultTile with htile
  set m1 := (setDensity g d1).mag * (setDensity g d1).global_density with hm1
  set m2 := g.mag * g.global_density with hm2
  have hm1e : m1 = g.mag * d1 := rfl
  have hmm : m1 ≤ m2 := by
    rw [hm1e, hm2]
    exact mul_le_mul_of_nonneg_left hd hM
  have hn : (ratTrunc (miniQ (tile.points.length : ℚ) m1)).toNat ≤
      (ratTrunc (miniQ (tile.points.length : ℚ) m2)).toNat := by
    rw [trunc_miniQ_natCast, trunc_miniQ_natCast]
    exact min_le_min le_rfl (Nat.floor_le_floor hmm)
  refine le_trans (length_filterMap_mono _ ?_) (length_filterMap_range_mono _ _ hn)
  intro i hi hs
  rw [List.mem_range, trunc_miniQ_natCast] at hi
  have hifl : i < ⌊m1⌋₊ := lt_of_lt_of_le hi (min_le_right _ _)
  have hm1nn : (0 : ℚ) ≤ m1 := by
    by_contra hneg
    rw [Nat.floor_of_nonpos (le_of_not_le hneg)] at hifl
    omega
  have hi1 : ((i : ℕ) : ℚ) + 1 ≤ m1 := by
    have h1 : ((i : ℕ) : ℚ) + 1 ≤ (⌊m1⌋₊ : ℚ) := by exact_mod_cast Nat.succ_le_of_lt hifl
    exact le_trans h1 (Nat.floor_le hm1nn)
  have hm1pos : (0 : ℚ) < m1 := by
    have : (0 : ℚ) < ((i : ℕ) : ℚ) + 1 := by positivity
    linarith
  have hm2pos : (0 : ℚ) < m2 := lt_of_lt_of_le hm1pos hmm
  by_cases ho : outsideVp (setDensity g d1) (tile.points.getD i ⟨0, 0⟩).x
      (tile.points.getD i ⟨0, 0⟩).y
  · rw [if_pos ho] at hs
    exact absurd hs (by simp)
  · rw [if_neg ho] at hs
    have ho2 : ¬ outsideVp g (tile.points.getD i ⟨0, 0⟩).x
        (tile.points.getD i ⟨0, 0⟩).y = true := ho
    rw [if_neg ho2]
    by_cases hs1 : sample_density ctx (tile.points.getD i ⟨0, 0⟩).x
        (tile.points.getD i ⟨0, 0⟩).y <
        ((i : ℚ) + 1) * (1 / (setDensity g d1).mag / (setDensity g d1).global_density)
    · rw [if_pos hs1] at hs
      exact absurd hs (by simp)
    · have hface : (1 : ℚ) / (setDensity g d1).mag / (setDensity g d1).global_density =
          1 / m1 := by
        rw [hm1e]; exact div_div 1 g.mag d1
      have hface2 : (1 : ℚ) / g.mag / g.global_density = 1 / m2 := by
        rw [hm2]; exact div_div 1 g.mag g.global_density
      rw [if_neg hs1] at hs
      rw [not_lt, hface] at hs1
      have hfle : ((i : ℚ) + 1) * (1 / m2) ≤ ((i : ℚ) + 1) * (1 / m1) := by
        have := one_div_le_one_div_of_le hm1pos hmm
        have hipos : (0 : ℚ) ≤ (i : ℚ) + 1 := by positivity
        exact mul_le_mul_of_nonneg_left this hipos
      rw [if_neg (by rw [not_lt, hface2]; linarith)]
      simp

theorem nodeEmit_length_mono (ctx : ParCtx) (g : Gen) (d1 : ℚ)
    (hd : d1 ≤ g.global_density) (hM : 0 ≤ g.mag) (tile : ParTile) (x y : ℚ) (level : ℕ) :
    (nodeEmit ctx (setDensity g d1) tile x y level).length ≤
      (nodeEmit ctx g tile x y level).length := by
  unfold nodeEmit
  dsimp only
  set depth := (ctx.nsubtiles : ℚ) ^ (2 * level) with hdepth
  have hdepnn : (0 : ℚ) ≤ depth := by positivity
  have hth1 : nodeThreshold ctx (setDensity g d1) tile level =
      g.mag / depth * d1 - (tile.points.length : ℚ) := rfl
  have hth2 : nodeThreshold ctx g tile level =
      g.mag / depth * g.global_density - (tile.points.length : ℚ) := rfl
  have hthm : nodeThreshold ctx (setDensity g d1) tile level ≤
      nodeThreshold ctx g tile level := by
    rw [hth1, hth2]
    have : g.mag / depth * d1 ≤ g.mag / depth * g.global_density :=
      mul_le_mul_of_nonneg_left hd (div_nonneg hM hdepnn)
    linarith
  have hn : (ratTrunc (miniQ (tile.subpts.length : ℚ)
        (nodeThreshold ctx (setDensity g d1) tile level))).toNat ≤
      (ratTrunc (miniQ (tile.subpts.length : ℚ) (nodeThreshold ctx g tile level))).toNat := by
    rw [trunc_miniQ_natCast, trunc_miniQ_natCast]
    exact min_le_min le_rfl (Nat.floor_le_floor hthm)
  refine le_trans (length_filterMap_mono _ ?_) (length_filterMap_range_mono _ _ hn)
  intro i hi hs
  rw [List.mem_range, trunc_miniQ_natCast] at hi
  have hifl : i < ⌊nodeThreshold ctx (setDensity g d1) tile level⌋₊ :=
    lt_of_lt_of_le hi (min_le_right _ _)
  have hth1nn : (0 : ℚ) ≤ nodeThreshold ctx (setDensity g d1) tile level := by
    by_contra hneg
    rw [Nat.floor_of_nonpos (le_of_not_le hneg)] at hifl
    omega
  have hi1 : ((i : ℕ) : ℚ) + 1 ≤ nodeThreshold ctx (setDensity g d1) tile level := by
    have h1 : ((i : ℕ) : ℚ) + 1 ≤ (⌊nodeThreshold ctx (setDensity g d1) tile level⌋₊ : ℚ) := by
      exact_mod_cast Nat.succ_le_of_lt hifl
    exact le_trans h1 (Nat.floor_le hth1nn)
  have hmd1pos : (0 : ℚ) < g.mag / depth * d1 := by
    rw [hth1] at hi1
    have h0 : (0 : ℚ) ≤ (tile.points.length : ℚ) := by positivity
    have h2 : (0 : ℚ) < ((i : ℕ) : ℚ) + 1 := by positivity
    linarith
  have hdeppos : (0 : ℚ) < depth := by
    rcases lt_or_eq_of_le hdepnn with h | h
    · exact h
    · rw [← h, div_zero, zero_mul] at hmd1pos
      exact absurd hmd1pos (lt_irrefl 0)
  have hmagpos : (0 : ℚ) < g.mag := by
    rcases lt_or_eq_of_le hM with h | h
    · exact h
    · rw [← h, zero_div, zero_mul] at hmd1pos
      exact absurd hmd1pos (lt_irrefl 0)
  have hd1pos : (0 : ℚ) < d1 := by
    by_contra hneg
    have : g.mag / depth * d1 ≤ 0 :=
      mul_nonpos_of_nonneg_of_nonpos (div_nonneg hM hdepnn) (le_of_not_lt hneg)
    linarith
  have hgdpos : (0 : ℚ) < g.global_density := lt_of_lt_of_le hd1pos hd
  have hfac1 : (1 : ℚ) / (setDensity g d1).mag * depth / (setDensity g d1).global_density =
      depth / (g.mag * d1) := by
    show (1 : ℚ) / g.mag * depth / d1 = depth / (g.mag * d1)
    rw [one_div_mul_eq_div, div_div]
  have hfac2 : (1 : ℚ) / g.mag * depth / g.global_density =
      depth / (g.mag * g.global_density) := by
    rw [one_div_mul_eq_div, div_div]
  have hfle : depth / (g.mag * g.global_density) ≤ depth / (g.mag * d1) := by
    refine div_le_div_of_nonneg_left hdepnn (by positivity) ?_
    exact mul_le_mul_of_nonneg_left hd hM
  by_cases ho : outsideVp (setDensity g d1)
      (x + (tile.subpts.getD i ⟨0, 0⟩).x * (1 / (ctx.nsubtiles : ℚ) ^ level))
      (y + (tile.subpts.getD i ⟨0, 0⟩).y * (1 / (ctx.nsubtiles : ℚ) ^ level))
  · rw [if_pos ho] at hs
    exact absurd hs (by simp)
  · rw [if_neg ho] at hs
    have ho2 : ¬ outsideVp g
        (x + (tile.subpts.getD i ⟨0, 0⟩).x * (1 / (ctx.nsubtiles : ℚ) ^ level))
        (y + (tile.subpts.getD i ⟨0, 0⟩).y * (1 / (ctx.nsubtiles : ℚ) ^ level)) = true := ho
    rw [if_neg ho2]
    by_cases hs1 : sample_density ctx
        (x + (tile.subpts.getD i ⟨0, 0⟩).x * (1 / (ctx.nsubtiles : ℚ) ^ level))
        (y + (tile.subpts.getD i ⟨0, 0⟩).y * (1 / (ctx.nsubtiles : ℚ) ^ level)) <
        ((i : ℚ) + (tile.points.length : ℚ)) *
          (1 / (setDensity g d1).mag * depth / (setDensity g d1).global_density)
    · rw [if_pos hs1] at hs
      exact absurd hs (by simp)
    · rw [if_neg hs1] at hs
      rw [not_lt, hfac1] at hs1
      have hle2 : ((i : ℚ) + (tile.points.length : ℚ)) * (depth / (g.mag * g.global_density)) ≤
          ((i : ℚ) + (tile.points.length : ℚ)) * (depth / (g.mag * d1)) := by
        have hipos : (0 : ℚ) ≤ (i : ℚ) + (tile.points.length : ℚ) := by positivity
        exact mul_le_mul_of_nonneg_left hfle hipos
      rw [if_neg (by rw [not_lt, hfac2]; linarith)]
      simp

theorem optAppendMap_length_mono {f h : α → Option (List Vec3)} :
    ∀ {l : List α} {r1 r2 : List Vec3},
      (∀ a ∈ l, ∀ ra rb, f a = some ra → h a = some rb → ra.length ≤ rb.length) →
      optAppendMap f l = some r1 → optAppendMap h l = some r2 →
      r1.length ≤ r2.length := by
  intro l
  induction l with
  | nil =>
      intro r1 r2 _ h1 h2
      unfold optAppendMap at h1 h2
      obtain rfl := Option.some.inj h1
      obtain rfl := Option.some.inj h2
      exact le_rfl
  | cons a rest ih =>
      intro r1 r2 himp h1 h2
      unfold optAppendMap at h1 h2
      cases hfa : f a with
      | none => rw [hfa] at h1; exact absurd h1 (by simp)
      | some ra =>
          cases hha : h a with
          | none => rw [hha] at h2; exact absurd h2 (by simp)
          | some rb =>
              rw [hfa] at h1
              rw [hha] at h2
              cases hrest1 : optAppendMap f rest with
              | none => rw [hrest1] at h1; exact absurd h1 (by simp)
              | some rs1 =>
                  cases hrest2 : optAppendMap h rest with
                  | none => rw [hrest2] at h2; exact absurd h2 (by simp)
                  | some rs2 =>
                      rw [hrest1] at h1
                      rw [hrest2] at h2
                      simp only [Option.bind_some, Option.pure_def] at h1 h2
                      obtain rfl := Option.some.inj h1
                      obtain rfl := Option.some.inj h2
                      rw [List.length_append, List.length_append]
                      have hhead := himp a (List.mem_cons_self a rest) ra rb hfa hha
                      have htail := ih (fun b hb => himp b (List.mem_cons_of_mem a hb))
                        hrest1 hrest2
                      omega

theorem applyTile_length_mono (ctx : ParCtx) (g : Gen) (d1 : ℚ)
    (hd : d1 ≤ g.global_density) (hM : 0 ≤ g.mag) :
    ∀ (fuel : ℕ) (tile : ParTile) (x y : ℚ) (level : ℕ) (r1 r2 : List Vec3),
      applyTile ctx (setDensity g d1) fuel tile x y level = some r1 →
      applyTile ctx g fuel tile x y level = some r2 →
      r1.length ≤ r2.length := by
  have hthm : ∀ (tile : ParTile) (level : ℕ),
      nodeThreshold ctx (setDensity g d1) tile level ≤ nodeThreshold ctx g tile level := by
    intro tile level
    have : g.mag / (ctx.nsubtiles : ℚ) ^ (2 * level) * d1 ≤
        g.mag / (ctx.nsubtiles : ℚ) ^ (2 * level) * g.global_density :=
      mul_le_mul_of_nonneg_left hd (div_nonneg hM (by positivity))
    show g.mag / (ctx.nsubtiles : ℚ) ^ (2 * level) * d1 - (tile.points.length : ℚ) ≤
      g.mag / (ctx.nsubtiles : ℚ) ^ (2 * level) * g.global_density - (tile.points.length : ℚ)
    linarith
  intro fuel
  induction fuel with
  | zero =>
      intro tile x y level r1 r2 h1 h2
      rw [applyTile] at h1 h2
      split at h1
      · obtain rfl := Option.some.inj h1
        simp
      · split at h1
        · obtain rfl := Option.some.inj h1
          split at h2
          · rename_i hsk _ hsk2
            exact absurd hsk2 hsk
          · split at h2
            · obtain rfl := Option.some.inj h2
              exact nodeEmit_length_mono ctx g d1 hd hM tile x y level
            · exact absurd h2 (by simp)
        · exact absurd h1 (by simp)
  | succ n ih =>
      intro tile x y level r1 r2 h1 h2
      rw [applyTile] at h1 h2
      split at h1
      · obtain rfl := Option.some.inj h1
        simp
      · split at h1
        · obtain rfl := Option.some.inj h1
          split at h2
          · rename_i hsk _ hsk2
            exact absurd hsk2 hsk
          · split at h2
            · obtain rfl := Option.some.inj h2
              exact nodeEmit_length_mono ctx g d1 hd hM tile x y level
            · rw [Option.map_eq_some'] at h2
              obtain ⟨rc2, _, rfl⟩ := h2
              rw [List.length_append]
              exact le_trans (nodeEmit_length_mono ctx g d1 hd hM tile x y level)
                (Nat.le_add_right _ _)
        · split at h2
          · rename_i hsk _ hsk2
            exact absurd hsk2 hsk
          · split at h2
            · rename_i hth1 _ hth2
              exact absurd (le_trans (hthm tile level) hth2) hth1
            · rw [Option.map_eq_some'] at h1 h2
              obtain ⟨rc1, hrc1, rfl⟩ := h1
              obtain ⟨rc2, hrc2, rfl⟩ := h2
              rw [List.length_append, List.length_append]
              have hhead := nodeEmit_length_mono ctx g d1 hd hM tile x y level
              have htail := optAppendMap_length_mono
                (fun c _ ra rb hra hrb =>
                  ih (ctx.tiles.getD c.1 defaultTile) c.2.1 c.2.2 (level + 1) ra rb hra hrb)
                hrc1 hrc2
              omega

/-- C5: for a fixed context and fixed viewport, the number of points returned
by `generate` is monotone in the density: if both runs succeed with the same
fuel and `d1 ≤ d2`, the run at `d2` returns at least as many points. -/
theorem C5_density_monotonicity (ctx : ParCtx) (vl vb vr vt d1 d2 : ℚ) (fuel : ℕ)
    (r1 r2 : List Vec3) (hd : d1 ≤ d2)
    (h1 : par_bluenoise_generate ctx d1 vl vb vr vt fuel = some r1)
    (h2 : par_bluenoise_generate ctx d2 vl vb vr vt fuel = some r2) :
    r1.length ≤ r2.length := by
  have hM : (0 : ℚ) ≤ (genOf d2 vl vb vr vt).mag := by
    show (0 : ℚ) ≤ (((vt + 1/2) - (vb + 1/2)) ^ (2 : ℕ))⁻¹
    positivity
  have hgd : (genOf d2 vl vb vr vt).global_density = d2 := rfl
  have hset : genOf d1 vl vb vr vt = setDensity (genOf d2 vl vb vr vt) d1 := rfl
  unfold par_bluenoise_generate at h1 h2
  rw [Option.map_eq_some'] at h1 h2
  obtain ⟨rc1, hrc1, rfl⟩ := h1
  obtain ⟨rc2, hrc2, rfl⟩ := h2
  rw [List.length_append, List.length_append]
  rw [hset] at hrc1 ⊢
  have hroot := rootEmit_length_mono ctx (genOf d2 vl vb vr vt) d1 (hgd ▸ hd) hM
  have hrec := applyTile_length_mono ctx (genOf d2 vl vb vr vt) d1 (hgd ▸ hd) hM fuel
    (ctx.tiles.getD 0 defaultTile) 0 0 0 rc1 rc2 hrc1 hrc2
  omega

/-- C5 witness: on the end-to-end tileset, density 2 returns 2 points and
density 4 returns 4 points. -/
theorem C5_density_monotonicity_witness :
    ((2 : ℚ) ≤ 4) ∧
    par_bluenoise_generate ctx3 2 (-(1/2)) (-(1/2)) (1/2) (1/2) 1 =
      some [⟨-(2/5), -(2/5), 0⟩, ⟨-(1/5), -(1/5), 1/2⟩] ∧
    par_bluenoise_generate ctx3 4 (-(1/2)) (-(1/2)) (1/2) (1/2) 1 =
      some [⟨-(2/5), -(2/5), 0⟩, ⟨-(1/5), -(1/5), 1/4⟩, ⟨1/10, 1/10, 1/2⟩, ⟨2/5, 2/5, 3/4⟩] ∧
    ([(⟨-(2/5), -(2/5), 0⟩ : Vec3), ⟨-(1/5), -(1/5), 1/2⟩].length ≤
      [(⟨-(2/5), -(2/5), 0⟩ : Vec3), ⟨-(1/5), -(1/5), 1/4⟩, ⟨1/10, 1/10, 1/2⟩,
        ⟨2/5, 2/5, 3/4⟩].length) :=
  ⟨by decide, by decide, by decide,
    C5_density_monotonicity ctx3 (-(1/2)) (-(1/2)) (1/2) (1/2) 2 4 1 _ _ (by decide)
      (by decide) (by decide)⟩

/-! ## The root pass agrees with its specification -/

theorem filter_range_ratLt (c : ℕ) (m : ℚ) :
    ((List.range c).filter fun (i : ℕ) => decide ((i : ℚ) < m)) =
      List.range (min c ⌈m⌉₊) := by
  induction c with
  | zero => simp
  | succ k ih =>
      rw [List.range_succ, List.filter_append, ih]
      by_cases h : (k : ℚ) < m
      · have hk : k < ⌈m⌉₊ := Nat.lt_ceil.mpr h
        have h1 : min k ⌈m⌉₊ = k := by omega
        have h2 : min (k + 1) ⌈m⌉₊ = k + 1 := by omega
        rw [h1, h2, List.filter_cons, if_pos (by simpa using h), List.filter_nil,
          ← List.range_succ]
      · have hk : ⌈m⌉₊ ≤ k := le_of_not_lt fun hc => h (Nat.lt_ceil.mp hc)
        have h1 : min k ⌈m⌉₊ = ⌈m⌉₊ := by omega
        have h2 : min (k + 1) ⌈m⌉₊ = ⌈m⌉₊ := by omega
        rw [h1, h2, List.filter_cons, if_neg (by simpa using h), List.filter_nil,
          List.append_nil]

theorem rootEmit_eq_spec (ctx : ParCtx) (g : Gen) (hden : densValuesLe1 ctx = true) :
    rootEmit ctx g = rootEmitSpec ctx g := by
  unfold rootEmit rootEmitSpec
  dsimp only
  rw [filter_range_ratLt, trunc_miniQ_natCast]
  set tile := ctx.tiles.getD 0 defaultTile with htile
  set m := g.mag * g.global_density with hm
  have hface : (1 : ℚ) / g.mag / g.global_density = 1 / m := div_div 1 g.mag g.global_density
  have hfun : ∀ i : ℕ,
      (if outsideVp g (tile.points.getD i ⟨0, 0⟩).x (tile.points.getD i ⟨0, 0⟩).y then none
       else if sample_density ctx (tile.points.getD i ⟨0, 0⟩).x
           (tile.points.getD i ⟨0, 0⟩).y <
           ((i : ℚ) + 1) * (1 / g.mag / g.global_density) then none
       else some (⟨(tile.points.getD i ⟨0, 0⟩).x - 1/2, (tile.points.getD i ⟨0, 0⟩).y - 1/2,
         (i : ℚ) * (1 / g.mag / g.global_density)⟩ : Vec3)) =
      (if (g.left ≤ (tile.points.getD i ⟨0, 0⟩).x ∧ (tile.points.getD i ⟨0, 0⟩).x ≤ g.right ∧
            g.bottom ≤ (tile.points.getD i ⟨0, 0⟩).y ∧ (tile.points.getD i ⟨0, 0⟩).y ≤ g.top) ∧
          ((i : ℚ) + 1) * (1 / m) ≤ sample_density ctx (tile.points.getD i ⟨0, 0⟩).x
            (tile.points.getD i ⟨0, 0⟩).y then
        some (⟨(tile.points.getD i ⟨0, 0⟩).x - 1/2, (tile.points.getD i ⟨0, 0⟩).y - 1/2,
          (i : ℚ) * (1 / m)⟩ : Vec3)
       else none) := by
    intro i
    by_cases ho : outsideVp g (tile.points.getD i ⟨0, 0⟩).x (tile.points.getD i ⟨0, 0⟩).y
    · rw [if_pos ho, if_neg]
      intro hcon
      rw [← outsideVp_eq_false] at hcon
      rw [ho] at hcon
      exact absurd hcon.1 (by simp)
    · have hfalse : outsideVp g (tile.points.getD i ⟨0, 0⟩).x
          (tile.points.getD i ⟨0, 0⟩).y = false := by
        simp only [Bool.not_eq_true] at ho
        exact ho
      have hin := (outsideVp_eq_false g _ _).mp hfalse
      rw [if_neg ho]
      by_cases hlt : sample_density ctx (tile.points.getD i ⟨0, 0⟩).x
          (tile.points.getD i ⟨0, 0⟩).y < ((i : ℚ) + 1) * (1 / g.mag / g.global_density)
      · rw [if_pos hlt, if_neg]
        rintro ⟨-, hge⟩
        rw [hface] at hlt
        exact absurd hge (not_le.mpr hlt)
      · rw [if_neg hlt, if_pos, hface]
        refine ⟨hin, ?_⟩
        rw [← hface]
        exact not_lt.mp hlt
  rw [List.filterMap_congr fun i _ => hfun i]
  rcases Nat.lt_or_ge (min tile.points.length ⌊m⌋₊) (min tile.points.length ⌈m⌉₊) with hlt | hge
  · have hfl : ⌊m⌋₊ < ⌈m⌉₊ := by
      have := Nat.ceil_le_floor_add_one m
      omega
    have hKfl : min tile.points.length ⌊m⌋₊ = ⌊m⌋₊ := by omega
    have hK2 : min tile.points.length ⌈m⌉₊ = ⌊m⌋₊ + 1 := by
      have := Nat.ceil_le_floor_add_one m
      omega
    have hmpos : (0 : ℚ) < m := by
      have hcpos : 0 < ⌈m⌉₊ := by omega
      exact Nat.ceil_pos.mp hcpos
    have hnone : (if (g.left ≤ (tile.points.getD ⌊m⌋₊ ⟨0, 0⟩).x ∧
            (tile.points.getD ⌊m⌋₊ ⟨0, 0⟩).x ≤ g.right ∧
            g.bottom ≤ (tile.points.getD ⌊m⌋₊ ⟨0, 0⟩).y ∧
            (tile.points.getD ⌊m⌋₊ ⟨0, 0⟩).y ≤ g.top) ∧
          ((⌊m⌋₊ : ℚ) + 1) * (1 / m) ≤ sample_density ctx (tile.points.getD ⌊m⌋₊ ⟨0, 0⟩).x
            (tile.points.getD ⌊m⌋₊ ⟨0, 0⟩).y then
        some (⟨(tile.points.getD ⌊m⌋₊ ⟨0, 0⟩).x - 1/2, (tile.points.getD ⌊m⌋₊ ⟨0, 0⟩).y - 1/2,
          (⌊m⌋₊ : ℚ) * (1 / m)⟩ : Vec3)
       else none) = none := by
      rw [if_neg]
      rintro ⟨-, hge2⟩
      have hs1 := sample_density_le_one ctx hden (tile.points.getD ⌊m⌋₊ ⟨0, 0⟩).x
        (tile.points.getD ⌊m⌋₊ ⟨0, 0⟩).y
      have hmlt : m < (⌊m⌋₊ : ℚ) + 1 := Nat.lt_floor_add_one m
      have hinv : (0 : ℚ) < 1 / m := by positivity
      have : m * (1 / m) < ((⌊m⌋₊ : ℚ) + 1) * (1 / m) := mul_lt_mul_of_pos_right hmlt hinv
      rw [mul_one_div_cancel (ne_of_gt hmpos)] at this
      linarith
    rw [hKfl, hK2, List.range_succ, List.filterMap_append]
    rw [List.filterMap_cons, hnone, List.filterMap_nil, List.append_nil]
  · have hK : min tile.points.length ⌊m⌋₊ = min tile.points.length ⌈m⌉₊ := by
      have := Nat.floor_le_ceil m
      omega
    rw [hK]

/-- C1: `generate` first translates the viewport by `+0.5`, computes
`mag = (rawTop − rawBottom)⁻²` from the UNCLAMPED height, then clamps the
four bounds to `[0, 1]`; the root pass then emits exactly the points the
spec's rule describes: indices `i` below `min(rootTile.points.count,
mag·density)`, accepted iff inside the clamped viewport with
`sample ≥ (i+1)·(1/(mag·density))`, with rank `i·(1/(mag·density))` (given
that all stored density values are ≤ 1, as both density builders ensure). -/
theorem C1_root_pass (ctx : ParCtx) (density vl vb vr vt : ℚ)
    (hden : densValuesLe1 ctx = true) :
    (genOf density vl vb vr vt).mag = ((vt - vb) ^ (2 : ℕ))⁻¹ ∧
    (genOf density vl vb vr vt).left = clampQ (vl + 1/2) 0 1 ∧
    (genOf density vl vb vr vt).right = clampQ (vr + 1/2) 0 1 ∧
    (genOf density vl vb vr vt).bottom = clampQ (vb + 1/2) 0 1 ∧
    (genOf density vl vb vr vt).top = clampQ (vt + 1/2) 0 1 ∧
    (genOf density vl vb vr vt).global_density = density ∧
    rootEmit ctx (genOf density vl vb vr vt) = rootEmitSpec ctx (genOf density vl vb vr vt) := by
  refine ⟨?_, rfl, rfl, rfl, rfl, rfl, rootEmit_eq_spec ctx _ hden⟩
  show (((vt + 1/2) - (vb + 1/2)) ^ (2 : ℕ))⁻¹ = ((vt - vb) ^ (2 : ℕ))⁻¹
  ring_nf

/-- C1 witness: the root-pass characterization applied to the end-to-end
scenario (no density field attached, so all density values are ≤ 1). -/
theorem C1_root_pass_witness :
    densValuesLe1 ctx3 = true ∧
    rootEmit ctx3 (genOf 4 (-(1/2)) (-(1/2)) (1/2) (1/2)) =
      rootEmitSpec ctx3 (genOf 4 (-(1/2)) (-(1/2)) (1/2) (1/2)) :=
  ⟨by decide,
    (C1_root_pass ctx3 4 (-(1/2)) (-(1/2)) (1/2) (1/2) (by decide)).2.2.2.2.2.2⟩

/-! ## The descent step agrees with its (amended) specification -/

theorem skipNode_iff_not_meets (g : Gen) (x y ts : ℚ) (hts : 0 ≤ ts)
    (hlr : g.left ≤ g.right) (hbt : g.bottom ≤ g.top) :
    (skipNode g x y ts = true ↔ ¬ footprintMeets g x y ts) := by
  unfold skipNode footprintMeets
  constructor
  · intro h hmeets
    obtain ⟨px, py, h1, h2, h3, h4, h5, h6, h7, h8⟩ := hmeets
    simp only [Bool.or_eq_true, decide_eq_true_eq] at h
    rcases h with ((hc | hc) | hc) | hc <;> linarith
  · intro h
    by_contra hne
    apply h
    simp only [Bool.or_eq_true, decide_eq_true_eq, not_or, not_lt] at hne
    obtain ⟨⟨⟨hb1, hb2⟩, hb3⟩, hb4⟩ := hne
    refine ⟨max x g.left, max y g.bottom, le_max_left _ _,
      max_le (by linarith) hb1, le_max_left _ _, max_le (by linarith) hb3,
      le_max_right _ _, max_le hb2 hlr, le_max_right _ _, max_le hb4 hbt⟩

theorem nodeEmit_eq_spec (ctx : ParCtx) (g : Gen) (tile : ParTile) (x y : ℚ) (level : ℕ) :
    nodeEmit ctx g tile x y level = nodeEmitSpec ctx g tile x y level := by
  unfold nodeEmit nodeEmitSpec nodeThreshold
  dsimp only
  apply List.filterMap_congr
  intro i _
  set depth := (ctx.nsubtiles : ℚ) ^ (2 * level) with hdepth
  set px := x + (tile.subpts.getD i ⟨0, 0⟩).x * (1 / (ctx.nsubtiles : ℚ) ^ level) with hpx
  set py := y + (tile.subpts.getD i ⟨0, 0⟩).y * (1 / (ctx.nsubtiles : ℚ) ^ level) with hpy
  have hfac : (1 : ℚ) / g.mag * depth / g.global_density =
      depth / (g.mag * g.global_density) := by
    rw [one_div_mul_eq_div, div_div]
  by_cases ho : outsideVp g px py
  · rw [if_pos ho, if_neg]
    intro hcon
    have hfalse := (outsideVp_eq_false g px py).mpr hcon.1
    rw [ho] at hfalse
    exact absurd hfalse (by simp)
  · have hfalse : outsideVp g px py = false := by
      simp only [Bool.not_eq_true] at ho
      exact ho
    have hin := (outsideVp_eq_false g px py).mp hfalse
    rw [if_neg ho]
    by_cases hlt : sample_density ctx px py <
        ((i : ℚ) + (tile.points.length : ℚ)) * (1 / g.mag * depth / g.global_density)
    · rw [if_pos hlt, if_neg]
      rintro ⟨-, hge⟩
      rw [hfac] at hlt
      exact absurd hge (not_le.mpr hlt)
    · rw [if_neg hlt, if_pos, hfac]
      refine ⟨hin, ?_⟩
      rw [← hfac]
      exact not_lt.mp hlt

/-- C2 (amended: the candidate count is the int truncation
`(int) min(T.subPoints.count, threshold)`): a descent node at level `L` is
skipped exactly when its footprint `[origin, origin+tileSize]²` misses the
clamped viewport; otherwise it emits exactly the points the spec's rule
describes (threshold `mag/depth·density − count`, factor `depth/(mag·density)`,
acceptance inside-viewport ∧ `sample ≥ (i+count)·factor`, rank
`(L+1) + i·factor`), and it spawns the `subtilesPerLevel²` children of
subdivision variant 0 on the regular sub-grid iff
`threshold > T.subPoints.count`. -/
theorem C2_node_step (ctx : ParCtx) (g : Gen) (tile : ParTile) (x y : ℚ) (level fuel : ℕ)
    (hlr : g.left ≤ g.right) (hbt : g.bottom ≤ g.top) :
    (skipNode g x y (1 / (ctx.nsubtiles : ℚ) ^ level) = true ↔
      ¬ footprintMeets g x y (1 / (ctx.nsubtiles : ℚ) ^ level)) ∧
    nodeEmit ctx g tile x y level = nodeEmitSpec ctx g tile x y level ∧
    (skipNode g x y (1 / (ctx.nsubtiles : ℚ) ^ level) = true →
      applyTile ctx g fuel tile x y level = some []) ∧
    (skipNode g x y (1 / (ctx.nsubtiles : ℚ) ^ level) = false →
      nodeThreshold ctx g tile level ≤ (tile.subpts.length : ℚ) →
      applyTile ctx g fuel tile x y level = some (nodeEmitSpec ctx g tile x y level)) ∧
    (skipNode g x y (1 / (ctx.nsubtiles : ℚ) ^ level) = false →
      (tile.subpts.length : ℚ) < nodeThreshold ctx g tile level →
      applyTile ctx g (fuel + 1) tile x y level =
        (optAppendMap
          (fun c => applyTile ctx g fuel (ctx.tiles.getD c.1 defaultTile) c.2.1 c.2.2
            (level + 1))
          (childListSpec ctx tile x y level)).map
          (nodeEmitSpec ctx g tile x y level ++ ·)) := by
  refine ⟨skipNode_iff_not_meets g x y _ (by positivity) hlr hbt,
    nodeEmit_eq_spec ctx g tile x y level, ?_, ?_, ?_⟩
  · intro hsk
    rw [applyTile.eq_def]
    dsimp only
    rw [if_pos hsk]
  · intro hsk hth
    rw [applyTile.eq_def]
    dsimp only
    rw [if_neg (by rw [hsk]; simp), if_pos hth, nodeEmit_eq_spec]
  · intro hsk hth
    rw [applyTile.eq_def]
    dsimp only
    rw [if_neg (by rw [hsk]; simp), if_neg (not_le.mpr hth)]
    rw [nodeEmit_eq_spec]
    rfl

/-- C2 witness: the node-step characterization applied to the root node of
the end-to-end scenario. -/
theorem C2_node_step_witness :
    ((genOf 4 (-(1/2)) (-(1/2)) (1/2) (1/2)).left ≤
        (genOf 4 (-(1/2)) (-(1/2)) (1/2) (1/2)).right ∧
      (genOf 4 (-(1/2)) (-(1/2)) (1/2) (1/2)).bottom ≤
        (genOf 4 (-(1/2)) (-(1/2)) (1/2) (1/2)).top) ∧
    nodeEmit ctx3 (genOf 4 (-(1/2)) (-(1/2)) (1/2) (1/2)) (ctx3.tiles.getD 0 defaultTile)
        0 0 0 =
      nodeEmitSpec ctx3 (genOf 4 (-(1/2)) (-(1/2)) (1/2) (1/2)) (ctx3.tiles.getD 0 defaultTile)
        0 0 0 :=
  ⟨⟨by decide, by decide⟩,
    (C2_node_step ctx3 (genOf 4 (-(1/2)) (-(1/2)) (1/2) (1/2)) (ctx3.tiles.getD 0 defaultTile)
      0 0 0 0 (by decide) (by decide)).2.1⟩

/-! ## The color-key density builder -/

theorem getD_map_range {w i : ℕ} (hi : i < w) (f : ℕ → α) (d : α) :
    ((List.range w).map f).getD i d = f i := by
  rw [List.getD_eq_getElem?_getD, List.getElem?_map, List.getElem?_range hi]
  rfl

theorem length_flatGrid (w : ℕ) (f : ℕ → ℕ → α) :
    ∀ h : ℕ, ((List.range h).flatMap fun j => (List.range w).map fun i => f j i).length =
      h * w := by
  intro h
  induction h with
  | zero => simp
  | succ k ih =>
      rw [List.range_succ, List.flatMap_append, List.length_append, ih]
      simp [Nat.succ_mul]

theorem getD_flatGrid (w : ℕ) (f : ℕ → ℕ → α) (d : α) :
    ∀ (h j i : ℕ), j < h → i < w →
      ((List.range h).flatMap fun jj => (List.range w).map fun ii => f jj ii).getD
        (j * w + i) d = f j i := by
  intro h
  induction h with
  | zero => intro j i hj _; omega
  | succ k ih =>
      intro j i hj hi
      rw [List.range_succ, List.flatMap_append]
      by_cases hjk : j < k
      · rw [List.getD_append]
        · exact ih j i hjk hi
        · rw [length_flatGrid]
          calc j * w + i < j * w + w := by omega
            _ = (j + 1) * w := by ring
            _ ≤ k * w := Nat.mul_le_mul_right w hjk
      · have hj' : j = k := by omega
        subst hj'
        rw [List.getD_append_right]
        · rw [length_flatGrid]
          have hidx : j * w + i - j * w = i := by omega
          rw [hidx]
          simp only [List.flatMap_cons, List.flatMap_nil, List.append_nil]
          exact getD_map_range hi _ d
        · rw [length_flatGrid]
          exact Nat.le_add_right _ _

/-- C8: the color-key density builder fails with `InvalidArgument` exactly
when `bytesPerPixel > 4`; for `bytesPerPixel ≤ 4` it succeeds and builds the
`width × height` 0/1 mask: cell `(j, i)` is 1 exactly when the masked pixel
word equals `backgroundColor` if `invert`, resp. differs from it if not. -/
theorem C8_color_key_builder (pixels : List ℕ) (width height : ℕ) (bpp : ℤ)
    (bkgd : ℕ) (invert : Bool) :
    (4 < bpp → par_bluenoise_density_from_color pixels width height bpp bkgd invert =
      .error .invalidArgument) ∧
    (bpp ≤ 4 → ∃ g : DensityGrid,
      par_bluenoise_density_from_color pixels width height bpp bkgd invert = .ok g ∧
      g.width = width ∧ g.height = height ∧ g.data.length = height * width ∧
      ∀ j i : ℕ, j < height → i < width →
        g.data.getD (j * width + i) 0 =
          (if (pixelWord pixels ((j * width + i : ℕ) * bpp) &&& colorMask bpp = bkgd) ↔
              (invert = true) then (1 : ℚ) else 0)) := by
  constructor
  · intro hbpp
    unfold par_bluenoise_density_from_color
    rw [if_pos hbpp]
  · intro hbpp
    unfold par_bluenoise_density_from_color
    rw [if_neg (not_lt.mpr hbpp)]
    refine ⟨_, rfl, rfl, rfl, ?_, ?_⟩
    · exact length_flatGrid width _ height
    · intro j i hj hi
      rw [getD_flatGrid width _ 0 height j i hj hi]
      by_cases hval : pixelWord pixels ((j * width + i : ℕ) * bpp) &&& colorMask bpp = bkgd
      · cases invert with
        | true => simp [hval]
        | false => simp [hval]
      · cases invert with
        | true => simp [hval]
        | false => simp [hval]

/-- C8 witness: the builder theorem applied at `bytesPerPixel = 5 > 4`. -/
theorem C8_color_key_builder_witness :
    (4 : ℤ) < 5 ∧
    par_bluenoise_density_from_color [0, 0, 0, 0, 0] 1 1 5 0 false =
      .error .invalidArgument :=
  ⟨by decide, (C8_color_key_builder [0, 0, 0, 0, 0] 1 1 5 0 false).1 (by decide)⟩

/-! ## The density sampler -/

theorem clampZ_mem (v lo hi : ℤ) (h : lo ≤ hi) :
    lo ≤ clampZ v lo hi ∧ clampZ v lo hi ≤ hi := by
  unfold clampZ
  split_ifs <;> omega

/-- C9 (amended to fields with `width ≥ 2` and `height ≥ 2`; for smaller
fields the clamp upper bound `width-2` resp. `height-2` is negative and the
computed index is invalid): `sample(x, y)` flips `y`, applies the
aspect-preserving transform with scale `max(width, height)` (see
`densityCellIx`/`densityCellIy`), clamps the cell indices into
`[0, width-2] × [0, height-2]` — valid grid indices — and returns that
cell's stored scalar without interpolation; with no field attached it
returns 1. -/
theorem C9_sample_density (ctx : ParCtx) (x y : ℚ) :
    (ctx.density = none → sample_density ctx x y = 1) ∧
    (∀ g : DensityGrid, ctx.density = some g → 2 ≤ g.width → 2 ≤ g.height →
      g.data.length = g.width * g.height →
      0 ≤ densityCellIx g.width g.height x ∧
      densityCellIx g.width g.height x ≤ (g.width : ℤ) - 2 ∧
      0 ≤ densityCellIy g.width g.height y ∧
      densityCellIy g.width g.height y ≤ (g.height : ℤ) - 2 ∧
      (densityCellIy g.width g.height y * (g.width : ℤ) +
        densityCellIx g.width g.height x).toNat < g.data.length ∧
      sample_density ctx x y =
        g.data.getD (densityCellIy g.width g.height y * (g.width : ℤ) +
          densityCellIx g.width g.height x).toNat 0) := by
  constructor
  · intro hnone
    unfold sample_density
    rw [hnone]
  · intro g hg hw hh hlen
    have hwZ : (0 : ℤ) ≤ (g.width : ℤ) - 2 := by
      have : (2 : ℤ) ≤ (g.width : ℤ) := by exact_mod_cast hw
      omega
    have hhZ : (0 : ℤ) ≤ (g.height : ℤ) - 2 := by
      have : (2 : ℤ) ≤ (g.height : ℤ) := by exact_mod_cast hh
      omega
    obtain ⟨hx0, hx1⟩ := clampZ_mem
      (ratTrunc ((x - 1/2) * (maxiN g.width g.height : ℚ) + ((g.width / 2 : ℕ) : ℚ)))
      0 ((g.width : ℤ) - 2) hwZ
    obtain ⟨hy0, hy1⟩ := clampZ_mem
      (ratTrunc (((1 - y) - 1/2) * (maxiN g.width g.height : ℚ) + ((g.height / 2 : ℕ) : ℚ)))
      0 ((g.height : ℤ) - 2) hhZ
    have hix0 : 0 ≤ densityCellIx g.width g.height x := hx0
    have hix1 : densityCellIx g.width g.height x ≤ (g.width : ℤ) - 2 := hx1
    have hiy0 : 0 ≤ densityCellIy g.width g.height y := hy0
    have hiy1 : densityCellIy g.width g.height y ≤ (g.height : ℤ) - 2 := hy1
    set ix := densityCellIx g.width g.height x
    set iy := densityCellIy g.width g.height y
    have hidx0 : 0 ≤ iy * (g.width : ℤ) + ix :=
      add_nonneg (mul_nonneg hiy0 (by positivity)) hix0
    have hidxlt : iy * (g.width : ℤ) + ix < (g.width : ℤ) * (g.height : ℤ) := by
      have h1 : iy * (g.width : ℤ) ≤ ((g.height : ℤ) - 2) * (g.width : ℤ) :=
        mul_le_mul_of_nonneg_right hiy1 (by positivity)
      nlinarith [hwZ, hhZ]
    have htn : (iy * (g.width : ℤ) + ix).toNat < g.data.length := by
      rw [hlen]
      rw [← Nat.cast_lt (α := ℤ), Int.toNat_of_nonneg hidx0]
      push_cast
      exact hidxlt
    refine ⟨hix0, hix1, hiy0, hiy1, htn, ?_⟩
    unfold sample_density
    rw [hg]
    dsimp only
    unfold gridGet
    rw [if_pos hidx0]

/-- C9 witness: the sampler theorem applied to a concrete `2 × 2` field. -/
def gridW9 : DensityGrid := { width := 2, height := 2, data := [1/2, 1/3, 1/5, 1/7] }

/-- Context carrying the concrete `2 × 2` field. -/
def ctxW9 : ParCtx := { tiles := [], nsubtiles := 1, density := some gridW9 }

theorem C9_sample_density_witness :
    (ctxW9.density = some gridW9 ∧ 2 ≤ gridW9.width ∧ 2 ≤ gridW9.height ∧
      gridW9.data.length = gridW9.width * gridW9.height) ∧
    sample_density ctxW9 (1/4) (1/4) =
      gridW9.data.getD (densityCellIy gridW9.width gridW9.height (1/4) * (gridW9.width : ℤ) +
        densityCellIx gridW9.width gridW9.height (1/4)).toNat 0 :=
  ⟨⟨rfl, by decide, by decide, by decide⟩,
    ((C9_sample_density ctxW9 (1/4) (1/4)).2 gridW9 rfl (by decide) (by decide)
      (by decide)).2.2.2.2.2⟩

end Parg
